import Mathlib

/-!
# Verification of the rust-helpers library

Shallow embedding of `src/src/lib.rs` and proofs of the specified properties.

Modelling conventions:

* A Rust `Vec<T>` is a `List α`; a `HashSet<T>` is represented by the list of its
  elements in the (arbitrary) enumeration order produced when it is materialized,
  together with a `Nodup` hypothesis where the claim needs uniqueness.
* The random shuffle `vec.shuffle(&mut rng)` is nondeterministic; the functions
  below take the already-shuffled list as argument, and theorems quantify over
  every list `shuffled` with `shuffled.Perm vec`, i.e. over every permutation the
  shuffle could produce.
* A Rust panic (the assertion inside `slice::chunks` when `chunk_size == 0`, and
  the remainder-by-zero panic of `i % parts` when `parts == 0`) is modelled as
  `Option.none`; a normal return is `some`.
* `usize` values are `Nat`; no arithmetic here can overflow a `usize` since all
  quantities are bounded by list lengths.
-/

namespace RustHelpers

variable {α : Type*}

/-- `greet_rust_helpers` from `src/src/lib.rs`:
`format!("Hello, {}! Welcome to Rust Helpers.", name)`. -/
def greet_rust_helpers (name : String) : String :=
  "Hello, " ++ name ++ "! Welcome to Rust Helpers."

/-- Model of Rust `slice::chunks(k).map(to_vec).collect()` for `k ≥ 1`: consecutive
chunks of `k` elements, the last one possibly shorter.  For a nonempty list the
head chunk is the first element together with the next `k - 1` ones, mirroring
`chunks`; the `k = 0` panic case is excluded by the caller (`split_rand_vec`)
before this function is reached. -/
def chunksOf (k : Nat) : List α → List (List α)
  | [] => []
  | x :: xs => (x :: xs.take (k - 1)) :: chunksOf k (xs.drop (k - 1))
termination_by l => l.length
decreasing_by
  simp only [List.length_drop, List.length_cons]
  omega

/-- `split_rand_vec` from `src/src/lib.rs`, after the shuffle: `vec.chunks(chunk_size)`.
Rust `chunks` asserts `chunk_size != 0` and panics otherwise (modelled by `none`). -/
def split_rand_vec (shuffled : List α) (chunk_size : Nat) : Option (List (List α)) :=
  if chunk_size = 0 then none
  else some (chunksOf chunk_size shuffled)

/-- The distribution loop of `split_rand_vec_eq` / `split_rand_hashset_eq`:
`for (i, e) in vec.iter().enumerate() { result[i % parts].push(e.clone()); }`.
`i` is the running index, `res` the accumulated groups.  When `parts == 0`,
`i % parts` panics in Rust on the first iteration (modelled by `none`); with an
empty list the loop body never runs and no panic occurs. -/
def distLoop (parts : Nat) : Nat → List α → List (List α) → Option (List (List α))
  | _, [], res => some res
  | i, e :: rest, res =>
    if parts = 0 then none
    else distLoop parts (i + 1) rest (res.set (i % parts) (res.getD (i % parts) [] ++ [e]))

/-- `split_rand_vec_eq` from `src/src/lib.rs`, after the shuffle:
`result = vec![Vec::new(); parts]` then the round-robin distribution loop. -/
def split_rand_vec_eq (shuffled : List α) (parts : Nat) : Option (List (List α)) :=
  distLoop parts 0 shuffled (List.replicate parts [])

/-- `split_rand_hashset_eq` from `src/src/lib.rs`: the `HashSet` is materialized
into an arbitrary enumeration order (`vec.into_iter().collect()`) and shuffled;
`elems` is the resulting list.  The remaining body is identical to
`split_rand_vec_eq`. -/
def split_rand_hashset_eq (elems : List α) (parts : Nat) : Option (List (List α)) :=
  distLoop parts 0 elems (List.replicate parts [])

/-- `check_sufficient_items` from `src/src/lib.rs`: for every `(item, req)` pair
count the elements of `checked_vector` equal to `item` and return `false` on the
first pair whose count falls short; `true` when the loop finishes.  (The `dbg!`
wrapper in the source only prints and returns its argument unchanged.) -/
def check_sufficient_items [DecidableEq α] : List (α × Nat) → List α → Bool
  | [], _ => true
  | (item, req_number_item) :: rest, checked_vector =>
    if checked_vector.countP (fun x => x == item) < req_number_item then false
    else check_sufficient_items rest checked_vector

/-- The elements of a list sitting at positions congruent to `j` modulo `p`, in
order, when position counting starts at `i0`.  Used to describe the content of
group `j` of the round-robin distribution. -/
def selIdx (p j : Nat) : Nat → List α → List α
  | _, [] => []
  | i0, e :: rest =>
    if i0 % p = j then e :: selIdx p j (i0 + 1) rest else selIdx p j (i0 + 1) rest

/-- The number of positions `t < n` with `(i0 + t) % p = j`: the length of group
`j` after distributing `n` elements round-robin starting at index `i0`. -/
def cnt (p j : Nat) : Nat → Nat → Nat
  | _, 0 => 0
  | i0, n + 1 => (if i0 % p = j then 1 else 0) + cnt p j (i0 + 1) n

/-! ## Helper lemmas about `chunksOf` -/

theorem chunksOf_flatten (k : Nat) (l : List α) : (chunksOf k l).flatten = l := by
  induction l using chunksOf.induct k with
  | case1 => simp [chunksOf]
  | case2 x xs ih => simp [chunksOf, ih]

theorem chunksOf_length_le (k : Nat) (hk : 1 ≤ k) (l : List α) :
    ∀ g ∈ chunksOf k l, g.length ≤ k := by
  induction l using chunksOf.induct k with
  | case1 => simp [chunksOf]
  | case2 x xs ih =>
    intro g hg
    rw [chunksOf] at hg
    rcases List.mem_cons.mp hg with h | h
    · subst h
      simp only [List.length_cons, List.length_take]
      omega
    · exact ih g h

theorem chunksOf_count (k : Nat) (hk : 1 ≤ k) (l : List α) :
    (chunksOf k l).length = (l.length + k - 1) / k := by
  induction l using chunksOf.induct k with
  | case1 => simp [chunksOf, Nat.div_eq_of_lt (by omega : k - 1 < k)]
  | case2 x xs ih =>
    rw [chunksOf]
    simp only [List.length_cons, ih, List.length_drop]
    have hmk : xs.length + 1 + k - 1 = xs.length + k := by omega
    rw [hmk, Nat.add_div_right _ (by omega : 0 < k)]
    rcases le_or_lt (k - 1) xs.length with h | h
    · have h1 : xs.length - (k - 1) + k - 1 = xs.length := by omega
      rw [h1, Nat.add_comm]
    · have h1 : xs.length - (k - 1) + k - 1 = k - 1 := by omega
      rw [h1, Nat.div_eq_of_lt (by omega : k - 1 < k),
        Nat.div_eq_of_lt (by omega : xs.length < k)]

/-! ## Helper lemmas about the round-robin distribution -/

theorem selIdx_of_ge (p j : Nat) (hp : 0 < p) (hj : p ≤ j) (i0 : Nat) (l : List α) :
    selIdx p j i0 l = [] := by
  induction l generalizing i0 with
  | nil => simp [selIdx]
  | cons e rest ih =>
    have hne : i0 % p ≠ j := by
      have := Nat.mod_lt i0 hp
      omega
    simp [selIdx, hne, ih]

theorem distLoop_spec (p : Nat) (hp : 0 < p) (l : List α) :
    ∀ (i0 : Nat) (res : List (List α)), res.length = p →
      ∃ out, distLoop p i0 l res = some out ∧ out.length = p ∧
        ∀ j, out.getD j [] = res.getD j [] ++ selIdx p j i0 l := by
  induction l with
  | nil =>
    intro i0 res hres
    exact ⟨res, rfl, hres, fun j => by simp [selIdx]⟩
  | cons e rest ih =>
    intro i0 res hres
    have hp0 : ¬ p = 0 := by omega
    have hlt : i0 % p < res.length := by
      rw [hres]
      exact Nat.mod_lt i0 hp
    have hres2len : (res.set (i0 % p) (res.getD (i0 % p) [] ++ [e])).length = p := by
      rw [List.length_set, hres]
    obtain ⟨out, hout, houtlen, hgetD⟩ := ih (i0 + 1) _ hres2len
    refine ⟨out, ?_, houtlen, ?_⟩
    · rw [distLoop, if_neg hp0]
      exact hout
    · intro j
      rw [hgetD j]
      by_cases hj : i0 % p = j
      · subst hj
        have hset : (res.set (i0 % p) (res.getD (i0 % p) [] ++ [e])).getD (i0 % p) [] =
            res.getD (i0 % p) [] ++ [e] := by
          rw [List.getD_eq_getElem?_getD, List.getElem?_set_self hlt]
          rfl
        rw [hset, selIdx, if_pos rfl, List.append_assoc]
        rfl
      · have hset : (res.set (i0 % p) (res.getD (i0 % p) [] ++ [e])).getD j [] =
            res.getD j [] := by
          rw [List.getD_eq_getElem?_getD, List.getElem?_set_ne hj, ← List.getD_eq_getElem?_getD]
        rw [hset, selIdx, if_neg hj]

theorem distLoop_groups (p : Nat) (hp : 0 < p) (l : List α) :
    ∃ groups, distLoop p 0 l (List.replicate p []) = some groups ∧ groups.length = p ∧
      ∀ j, groups.getD j [] = selIdx p j 0 l := by
  obtain ⟨out, hout, hlen, hgetD⟩ :=
    distLoop_spec p hp l 0 (List.replicate p []) (List.length_replicate p [])
  refine ⟨out, hout, hlen, fun j => ?_⟩
  rw [hgetD j, List.getD_eq_getElem?_getD, List.getElem?_replicate]
  split <;> rfl

theorem distLoop_main (p : Nat) (hp : 0 < p) (l : List α) :
    ∃ groups, distLoop p 0 l (List.replicate p []) = some groups ∧
      groups.length = p ∧
      (∀ j, groups.getD j [] = selIdx p j 0 l) ∧
      groups = (List.range p).map (fun j => selIdx p j 0 l) := by
  obtain ⟨groups, hgroups, hlen, hgetD⟩ := distLoop_groups p hp l
  refine ⟨groups, hgroups, hlen, hgetD, List.ext_getElem ?_ ?_⟩
  · simp [hlen]
  · intro n h1 h2
    rw [List.getElem_map, List.getElem_range, ← List.getD_eq_getElem groups [] h1, hgetD n]

theorem flatten_map_cons_ite (p j0 : Nat) (hj0 : j0 < p) (e : α) (f g : Nat → List α)
    (hf : ∀ j, f j = if j = j0 then e :: g j else g j) :
    ((List.range p).map f).flatten.Perm (e :: ((List.range p).map g).flatten) := by
  induction p with
  | zero => omega
  | succ q ih =>
    rw [List.range_succ, List.map_append, List.flatten_append, List.map_append,
      List.flatten_append]
    simp only [List.map_cons, List.map_nil, List.flatten_cons, List.flatten_nil,
      List.append_nil]
    by_cases hq : j0 = q
    · subst hq
      have hmap : (List.range j0).map f = (List.range j0).map g := by
        apply List.map_congr_left
        intro j hj
        rw [hf j, if_neg]
        have := List.mem_range.mp hj
        omega
      rw [hmap, hf j0, if_pos rfl]
      exact List.perm_middle
    · have hfq : f q = g q := by
        rw [hf q, if_neg (fun h => hq h.symm)]
      rw [hfq]
      have ihq := ih (by omega)
      simpa using ihq.append_right (g q)

theorem flatten_selIdx_perm (p : Nat) (hp : 0 < p) (l : List α) :
    ∀ i0, ((List.range p).map (fun j => selIdx p j i0 l)).flatten.Perm l := by
  induction l with
  | nil =>
    intro i0
    simp [selIdx]
  | cons e rest ih =>
    intro i0
    have hstep := flatten_map_cons_ite p (i0 % p) (Nat.mod_lt i0 hp) e
      (fun j => selIdx p j i0 (e :: rest)) (fun j => selIdx p j (i0 + 1) rest) ?_
    · exact hstep.trans ((ih (i0 + 1)).cons e)
    · intro j
      by_cases h : i0 % p = j
      · rcases h with rfl
        simp [selIdx]
      · simp only [selIdx]
        rw [if_neg h, if_neg (fun hh => h hh.symm)]

theorem selIdx_length (p j : Nat) (l : List α) :
    ∀ i0, (selIdx p j i0 l).length = cnt p j i0 l.length := by
  induction l with
  | nil =>
    intro i0
    simp [selIdx, cnt]
  | cons e rest ih =>
    intro i0
    simp only [selIdx, cnt, List.length_cons]
    by_cases h : i0 % p = j
    · rw [if_pos h, if_pos h, List.length_cons, ih]
      omega
    · rw [if_neg h, if_neg h, ih]
      omega

theorem cnt_succ (p j i0 n : Nat) :
    cnt p j i0 (n + 1) = cnt p j i0 n + (if (i0 + n) % p = j then 1 else 0) := by
  induction n generalizing i0 with
  | zero => simp [cnt]
  | succ m ih =>
    rw [cnt, ih (i0 + 1), cnt]
    have h3 : i0 + 1 + m = i0 + (m + 1) := by omega
    rw [h3]
    split_ifs <;> omega

theorem cnt_formula (p j : Nat) (hp : 0 < p) (hj : j < p) :
    ∀ n, cnt p j 0 n = n / p + if j < n % p then 1 else 0 := by
  intro n
  induction n with
  | zero => simp [cnt]
  | succ m ih =>
    rw [cnt_succ, ih]
    simp only [Nat.zero_add]
    have hd := Nat.div_add_mod m p
    have hr : m % p < p := Nat.mod_lt m hp
    by_cases hcase : m % p = p - 1
    · have h2 : m + 1 = p * (m / p + 1) := by
        rw [Nat.mul_succ]
        omega
      rw [h2, Nat.mul_div_cancel_left _ hp, Nat.mul_mod_right, hcase]
      split_ifs <;> omega
    · have hlt : m % p + 1 < p := by omega
      have h2 : m + 1 = (m % p + 1) + p * (m / p) := by omega
      rw [h2, Nat.add_mul_div_left _ _ hp, Nat.div_eq_of_lt hlt, Nat.add_mul_mod_self_left,
        Nat.mod_eq_of_lt hlt]
      split_ifs <;> omega

theorem selIdx_getElem? (p j : Nat) (l : List α) :
    ∀ i0 t, t < l.length → (i0 + t) % p = j →
      (selIdx p j i0 l)[cnt p j i0 t]? = l[t]? := by
  induction l with
  | nil =>
    intro i0 t ht
    simp at ht
  | cons e rest ih =>
    intro i0 t ht hmod
    cases t with
    | zero =>
      have h0 : i0 % p = j := by simpa using hmod
      simp only [selIdx, cnt, if_pos h0]
      rw [List.getElem?_cons_zero, List.getElem?_cons_zero]
    | succ u =>
      have hmod2 : (i0 + 1 + u) % p = j := by
        have he : i0 + 1 + u = i0 + (u + 1) := by omega
        rw [he]
        exact hmod
      have hu : u < rest.length := by
        simpa using ht
      simp only [selIdx, cnt]
      by_cases hc : i0 % p = j
      · rw [if_pos hc, if_pos hc]
        have hone : 1 + cnt p j (i0 + 1) u = cnt p j (i0 + 1) u + 1 := Nat.add_comm 1 _
        rw [hone, List.getElem?_cons_succ, List.getElem?_cons_succ]
        exact ih (i0 + 1) u hu hmod2
      · rw [if_neg hc, if_neg hc, Nat.zero_add, List.getElem?_cons_succ]
        exact ih (i0 + 1) u hu hmod2


example : chunksOf 3 [1, 2, 3, 4, 5, 6, 7, 8] = [[1, 2, 3], [4, 5, 6], [7, 8]] := by
  simp [chunksOf]

example : split_rand_vec_eq [1, 2, 3, 4, 5, 6, 7] 3 = some [[1, 4, 7], [2, 5], [3, 6]] := by
  decide

example : split_rand_vec_eq ([] : List Nat) 0 = some [] := by decide

example : split_rand_vec_eq [1] 0 = none := by decide

example : check_sufficient_items [(0, 2), (1, 1)] [0, 0, 1] = true := by decide

example : check_sufficient_items [(0, 2), (1, 1)] [0, 1] = false := by decide

theorem distLoop_flatten_perm (p : Nat) (hp : 0 < p) (l : List α) :
    ∃ groups, distLoop p 0 l (List.replicate p []) = some groups ∧
      groups.flatten.Perm l := by
  obtain ⟨groups, hg, hlen, hgetD, hmap⟩ := distLoop_main p hp l
  refine ⟨groups, hg, ?_⟩
  rw [hmap]
  exact flatten_selIdx_perm p hp l 0

/-! ## The claims -/

/-- C1: `check_sufficient_items req_items checked_vector` returns `true` iff every
pair `(item, k)` of the requirement list has at least `k` occurrences of `item`
(by value equality) in `checked_vector`.  In particular it is `true` for an empty
requirement list and for pairs with required count `0`, `false` when some item
occurs fewer times than required, and duplicate pairs are each evaluated
independently against the same observed count. -/
theorem claim_C1 [DecidableEq α] (req_items : List (α × Nat)) (checked_vector : List α) :
    check_sufficient_items req_items checked_vector = true ↔
      ∀ q ∈ req_items, q.2 ≤ List.count q.1 checked_vector := by
  induction req_items with
  | nil => simp [check_sufficient_items]
  | cons hd tl ih =>
    obtain ⟨item, req⟩ := hd
    have hcount : List.count item checked_vector = checked_vector.countP fun x => x == item :=
      rfl
    simp only [check_sufficient_items, List.mem_cons]
    split_ifs with h
    · simp only [Bool.false_eq_true, false_iff]
      intro hall
      have hone : req ≤ List.count item checked_vector := hall (item, req) (Or.inl rfl)
      rw [hcount] at hone
      omega
    · rw [ih]
      constructor
      · intro hall q hq
        rcases hq with rfl | hq2
        · show req ≤ List.count item checked_vector
          rw [hcount]
          omega
        · exact hall q hq2
      · intro hall q hq
        exact hall q (Or.inr hq)

theorem claim_C1_witness :
    check_sufficient_items [((1 : Nat), 2), (2, 1)] [1, 1, 2] = true :=
  (claim_C1 [((1 : Nat), 2), (2, 1)] [1, 1, 2]).mpr (by decide)

/-- C2: for every `chunk_size ≥ 1` and every permutation `shuffled` of the input,
`split_rand_vec` succeeds, its groups flatten to a permutation of the input (equal
multisets), every group has at most `chunk_size` elements (so in particular every
group but the last), and the number of groups is `⌈n / chunk_size⌉`. -/
theorem claim_C2 (vec shuffled : List α) (chunk_size : Nat)
    (hperm : shuffled.Perm vec) (hk : 1 ≤ chunk_size) :
    ∃ groups, split_rand_vec shuffled chunk_size = some groups ∧
      groups.flatten.Perm vec ∧
      (∀ g ∈ groups, g.length ≤ chunk_size) ∧
      groups.length = (vec.length + chunk_size - 1) / chunk_size := by
  refine ⟨chunksOf chunk_size shuffled, ?_, ?_, chunksOf_length_le _ hk _, ?_⟩
  · rw [split_rand_vec, if_neg (by omega)]
  · rw [chunksOf_flatten]
    exact hperm
  · rw [chunksOf_count _ hk, hperm.length_eq]

theorem claim_C2_witness :
    ∃ groups, split_rand_vec ([1, 2, 3, 4, 5, 6, 7, 8] : List Nat) 3 = some groups ∧
      groups.flatten.Perm [1, 2, 3, 4, 5, 6, 7, 8] ∧
      (∀ g ∈ groups, g.length ≤ 3) ∧
      groups.length = (List.length [1, 2, 3, 4, 5, 6, 7, 8] + 3 - 1) / 3 :=
  claim_C2 [1, 2, 3, 4, 5, 6, 7, 8] [1, 2, 3, 4, 5, 6, 7, 8] 3 (List.Perm.refl _) (by decide)

/-- C3: for every `parts ≥ 1` and every permutation `shuffled` of the input,
`split_rand_vec_eq` succeeds with exactly `parts` groups, any two group sizes
differ by at most 1, the group sizes sum to the input size, and the element at
permuted position `i` sits at slot `i / parts` of group `i % parts` (round-robin
fill order). -/
theorem claim_C3 (vec shuffled : List α) (parts : Nat)
    (hperm : shuffled.Perm vec) (hp : 1 ≤ parts) :
    ∃ groups, split_rand_vec_eq shuffled parts = some groups ∧
      groups.length = parts ∧
      (∀ g1 ∈ groups, ∀ g2 ∈ groups, g1.length ≤ g2.length + 1) ∧
      (groups.map List.length).sum = vec.length ∧
      ∀ i, i < shuffled.length →
        (groups.getD (i % parts) [])[i / parts]? = shuffled[i]? := by
  obtain ⟨groups, hg, hlen, hgetD, hmap⟩ := distLoop_main parts hp shuffled
  have hlen_of_mem : ∀ g ∈ groups, ∃ j, j < parts ∧
      g.length = shuffled.length / parts +
        if j < shuffled.length % parts then 1 else 0 := by
    intro g hgmem
    rw [hmap] at hgmem
    obtain ⟨j, hjmem, hjeq⟩ := List.mem_map.mp hgmem
    refine ⟨j, List.mem_range.mp hjmem, ?_⟩
    rw [← hjeq, selIdx_length, cnt_formula parts j hp (List.mem_range.mp hjmem)]
  have hflat : groups.flatten.Perm shuffled := by
    rw [hmap]
    exact flatten_selIdx_perm parts hp shuffled 0
  refine ⟨groups, hg, hlen, ?_, ?_, ?_⟩
  · intro g1 h1 g2 h2
    obtain ⟨j1, hj1, e1⟩ := hlen_of_mem g1 h1
    obtain ⟨j2, hj2, e2⟩ := hlen_of_mem g2 h2
    rw [e1, e2]
    split_ifs <;> omega
  · rw [← List.length_flatten, hflat.length_eq, hperm.length_eq]
  · intro i hi
    have hj : i % parts < parts := Nat.mod_lt i hp
    have hsel := selIdx_getElem? parts (i % parts) shuffled 0 i hi (by rw [Nat.zero_add])
    have hcnt : cnt parts (i % parts) 0 i = i / parts := by
      rw [cnt_formula parts (i % parts) hp hj i]
      simp
    rw [hgetD (i % parts), ← hcnt]
    exact hsel

theorem claim_C3_witness :
    ∃ groups, split_rand_vec_eq ([1, 2, 3, 4, 5, 6, 7] : List Nat) 3 = some groups ∧
      groups.length = 3 ∧
      (∀ g1 ∈ groups, ∀ g2 ∈ groups, g1.length ≤ g2.length + 1) ∧
      (groups.map List.length).sum = List.length [1, 2, 3, 4, 5, 6, 7] ∧
      ∀ i, i < List.length ([1, 2, 3, 4, 5, 6, 7] : List Nat) →
        (groups.getD (i % 3) [])[i / 3]? = ([1, 2, 3, 4, 5, 6, 7] : List Nat)[i]? :=
  claim_C3 [1, 2, 3, 4, 5, 6, 7] [1, 2, 3, 4, 5, 6, 7] 3 (List.Perm.refl _) (by decide)

/-- C4: for each of the three partitioning operations with a valid parameter, and
for every permutation the shuffle could produce, the sizes of the output groups
sum to the size of the input collection: shuffling changes order, never
membership or multiplicity. -/
theorem claim_C4 :
    (∀ (vec shuffled : List α) (chunk_size : Nat), shuffled.Perm vec → 1 ≤ chunk_size →
      ∃ groups, split_rand_vec shuffled chunk_size = some groups ∧
        (groups.map List.length).sum = vec.length) ∧
    (∀ (vec shuffled : List α) (parts : Nat), shuffled.Perm vec → 1 ≤ parts →
      ∃ groups, split_rand_vec_eq shuffled parts = some groups ∧
        (groups.map List.length).sum = vec.length) ∧
    (∀ (elems shuffled : List α) (parts : Nat), shuffled.Perm elems → 1 ≤ parts →
      ∃ groups, split_rand_hashset_eq shuffled parts = some groups ∧
        (groups.map List.length).sum = elems.length) := by
  refine ⟨?_, ?_, ?_⟩
  · intro vec shuffled chunk_size hperm hk
    refine ⟨chunksOf chunk_size shuffled, ?_, ?_⟩
    · rw [split_rand_vec, if_neg (by omega)]
    · rw [← List.length_flatten, chunksOf_flatten, hperm.length_eq]
  · intro vec shuffled parts hperm hp
    obtain ⟨groups, hg, hflat⟩ := distLoop_flatten_perm parts hp shuffled
    exact ⟨groups, hg, by rw [← List.length_flatten, hflat.length_eq, hperm.length_eq]⟩
  · intro elems shuffled parts hperm hp
    obtain ⟨groups, hg, hflat⟩ := distLoop_flatten_perm parts hp shuffled
    exact ⟨groups, hg, by rw [← List.length_flatten, hflat.length_eq, hperm.length_eq]⟩

theorem claim_C4_witness :
    (∃ groups, split_rand_vec ([2, 1, 3] : List Nat) 2 = some groups ∧
      (groups.map List.length).sum = List.length ([1, 2, 3] : List Nat)) ∧
    (∃ groups, split_rand_vec_eq ([2, 1, 3] : List Nat) 2 = some groups ∧
      (groups.map List.length).sum = List.length ([1, 2, 3] : List Nat)) ∧
    (∃ groups, split_rand_hashset_eq ([2, 1, 3] : List Nat) 2 = some groups ∧
      (groups.map List.length).sum = List.length ([1, 2, 3] : List Nat)) :=
  ⟨claim_C4.1 [1, 2, 3] [2, 1, 3] 2 (by decide) (by decide),
    claim_C4.2.1 [1, 2, 3] [2, 1, 3] 2 (by decide) (by decide),
    claim_C4.2.2 [1, 2, 3] [2, 1, 3] 2 (by decide) (by decide)⟩

/-- C5 (amended): with a zero-valued partition parameter the operations do not
return an explicit error value.  `split_rand_vec` panics for every input (the
`chunks(0)` assertion, modelled by `none`); `split_rand_vec_eq` and
`split_rand_hashset_eq` panic on the remainder-by-zero when the input is
non-empty and silently return an empty group list when the input is empty. -/
theorem claim_C5_amended (l : List α) :
    split_rand_vec l 0 = none ∧
    (l ≠ [] → split_rand_vec_eq l 0 = none ∧ split_rand_hashset_eq l 0 = none) ∧
    (l = [] → split_rand_vec_eq l 0 = some [] ∧ split_rand_hashset_eq l 0 = some []) := by
  refine ⟨rfl, ?_, ?_⟩
  · intro hne
    obtain ⟨e, rest, rfl⟩ := List.exists_cons_of_ne_nil hne
    exact ⟨rfl, rfl⟩
  · rintro rfl
    exact ⟨rfl, rfl⟩

/-- C5 counterexample: at input `[0]` with parameter `0`, all three operations
panic (modelled by `none`) instead of rejecting the call with an explicit error
value, so the claim as stated fails. -/
theorem claim_C5_counterexample :
    split_rand_vec [(0 : Nat)] 0 = none ∧ split_rand_vec_eq [(0 : Nat)] 0 = none ∧
      split_rand_hashset_eq [(0 : Nat)] 0 = none :=
  ⟨rfl, rfl, rfl⟩

theorem claim_C5_amended_witness :
    split_rand_vec [(1 : Nat)] 0 = none ∧
    (split_rand_vec_eq [(1 : Nat)] 0 = none ∧ split_rand_hashset_eq [(1 : Nat)] 0 = none) ∧
    (split_rand_vec_eq ([] : List Nat) 0 = some [] ∧
      split_rand_hashset_eq ([] : List Nat) 0 = some []) :=
  ⟨(claim_C5_amended [1]).1, (claim_C5_amended [1]).2.1 (by decide),
    (claim_C5_amended ([] : List Nat)).2.2 rfl⟩

/-- C6: an empty input with a valid parameter is not an error: `split_rand_vec`
returns an empty group list, and the fixed-count splits return exactly `parts`
groups, each of them empty. -/
theorem claim_C6 (chunk_size parts : Nat) (hk : 1 ≤ chunk_size) (_hp : 1 ≤ parts) :
    split_rand_vec ([] : List α) chunk_size = some [] ∧
    (∃ groups, split_rand_vec_eq ([] : List α) parts = some groups ∧
      groups.length = parts ∧ ∀ g ∈ groups, g = []) ∧
    (∃ groups, split_rand_hashset_eq ([] : List α) parts = some groups ∧
      groups.length = parts ∧ ∀ g ∈ groups, g = []) := by
  refine ⟨?_, ?_, ?_⟩
  · rw [split_rand_vec, if_neg (by omega)]
    simp [chunksOf]
  · exact ⟨List.replicate parts [], rfl, List.length_replicate parts [],
      fun g hg => List.eq_of_mem_replicate hg⟩
  · exact ⟨List.replicate parts [], rfl, List.length_replicate parts [],
      fun g hg => List.eq_of_mem_replicate hg⟩

theorem claim_C6_witness :
    split_rand_vec ([] : List Nat) 1 = some [] ∧
    (∃ groups, split_rand_vec_eq ([] : List Nat) 2 = some groups ∧
      groups.length = 2 ∧ ∀ g ∈ groups, g = []) ∧
    (∃ groups, split_rand_hashset_eq ([] : List Nat) 2 = some groups ∧
      groups.length = 2 ∧ ∀ g ∈ groups, g = []) :=
  claim_C6 1 2 (by decide) (by decide)

/-- C7: for a set input (a list of pairwise distinct elements in an arbitrary
enumeration order) and `parts ≥ 1`, every element of the set appears in exactly
one output group, exactly once, and no element is added: every group member
comes from the set. -/
theorem claim_C7 [DecidableEq α] (elems shuffled : List α) (parts : Nat)
    (hperm : shuffled.Perm elems) (hnd : elems.Nodup) (hp : 1 ≤ parts) :
    ∃ groups, split_rand_hashset_eq shuffled parts = some groups ∧
      (∀ a ∈ elems, (groups.map (List.count a)).sum = 1) ∧
      (∀ g ∈ groups, ∀ a ∈ g, a ∈ elems) := by
  obtain ⟨groups, hg, hflat⟩ := distLoop_flatten_perm parts hp shuffled
  refine ⟨groups, hg, ?_, ?_⟩
  · intro a ha
    rw [← List.count_flatten, (hflat.trans hperm).count_eq]
    exact List.count_eq_one_of_mem hnd ha
  · intro g hgmem a hag
    exact (hflat.trans hperm).mem_iff.mp (List.mem_flatten.mpr ⟨g, hgmem, hag⟩)

theorem claim_C7_witness :
    ∃ groups, split_rand_hashset_eq ([3, 1, 2] : List Nat) 2 = some groups ∧
      (∀ a ∈ ([1, 2, 3] : List Nat), (groups.map (List.count a)).sum = 1) ∧
      (∀ g ∈ groups, ∀ a ∈ g, a ∈ ([1, 2, 3] : List Nat)) :=
  claim_C7 [1, 2, 3] [3, 1, 2] 2 (by decide) (by decide) (by decide)

/-- C8: `greet_rust_helpers` interpolates `name` into a fixed greeting template:
there are fixed strings `pre` and `suf`, independent of `name`, with
`greet_rust_helpers name = pre ++ name ++ suf`, and the function is total on
strings (no validation or error). -/
theorem claim_C8 :
    ∃ pre suf : String, ∀ name : String, greet_rust_helpers name = pre ++ name ++ suf :=
  ⟨"Hello, ", "! Welcome to Rust Helpers.", fun _ => rfl⟩

/-- C9: with `parts ≥ 1`, the group sizes of the fixed-count splits are fully
determined: group `j` has `n / parts + 1` elements when `j < n % parts` and
`n / parts` elements otherwise (`n` the input length, i.e. the set cardinality
for the set variant), so the larger groups come first. -/
theorem claim_C9 (l : List α) (parts : Nat) (hp : 1 ≤ parts) (j : Nat) (hj : j < parts) :
    ∃ groups, split_rand_vec_eq l parts = some groups ∧
      split_rand_hashset_eq l parts = some groups ∧
      (groups.getD j []).length =
        l.length / parts + (if j < l.length % parts then 1 else 0) ∧
      ∀ j2, j ≤ j2 → j2 < parts →
        (groups.getD j2 []).length ≤ (groups.getD j []).length := by
  obtain ⟨groups, hg, hlen, hgetD, hmap⟩ := distLoop_main parts hp l
  refine ⟨groups, hg, hg, ?_, ?_⟩
  · rw [hgetD j, selIdx_length, cnt_formula parts j hp hj]
  · intro j2 hle hj2
    rw [hgetD j, hgetD j2, selIdx_length, selIdx_length, cnt_formula parts j hp hj,
      cnt_formula parts j2 hp hj2]
    split_ifs <;> omega

theorem claim_C9_witness :
    ∃ groups, split_rand_vec_eq ([1, 2, 3, 4, 5, 6, 7] : List Nat) 3 = some groups ∧
      split_rand_hashset_eq ([1, 2, 3, 4, 5, 6, 7] : List Nat) 3 = some groups ∧
      (groups.getD 1 []).length =
        List.length ([1, 2, 3, 4, 5, 6, 7] : List Nat) / 3 +
          (if 1 < List.length ([1, 2, 3, 4, 5, 6, 7] : List Nat) % 3 then 1 else 0) ∧
      ∀ j2, 1 ≤ j2 → j2 < 3 →
        (groups.getD j2 []).length ≤ (groups.getD 1 []).length :=
  claim_C9 [1, 2, 3, 4, 5, 6, 7] 3 (by decide) 1 (by decide)

/-- C10: with `parts = 0` and an empty input, the fixed-count splits return an
empty sequence of groups without panicking; the remainder-by-zero panic branch
is reached exactly when the input is non-empty. -/
theorem claim_C10 (l : List α) :
    (l = [] → split_rand_vec_eq l 0 = some [] ∧ split_rand_hashset_eq l 0 = some []) ∧
    (l ≠ [] → split_rand_vec_eq l 0 = none ∧ split_rand_hashset_eq l 0 = none) := by
  constructor
  · rintro rfl
    exact ⟨rfl, rfl⟩
  · intro hne
    obtain ⟨e, rest, rfl⟩ := List.exists_cons_of_ne_nil hne
    exact ⟨rfl, rfl⟩

theorem claim_C10_witness :
    (split_rand_vec_eq ([] : List Nat) 0 = some [] ∧
      split_rand_hashset_eq ([] : List Nat) 0 = some []) ∧
    (split_rand_vec_eq [(7 : Nat)] 0 = none ∧ split_rand_hashset_eq [(7 : Nat)] 0 = none) :=
  ⟨(claim_C10 ([] : List Nat)).1 rfl, (claim_C10 [(7 : Nat)]).2 (by decide)⟩

end RustHelpers
